import Mathlib

/-!
Verification of the dev-to-git publication pipeline (src/dev-to-git.ts).

The development shallowly embeds the program:
* the repository-URL regular expression `/.*\/(.*)\/(.*)\.git/` is embedded as
  a backtracking matcher with JavaScript semantics (leftmost match attempt,
  greedy `.*`, `.` matching every character except an ECMAScript line
  terminator);
* `parseRepository`, `extractRepository` (its fallback chain at construction
  time), `readConfigFile`, `publishArticles` and the top-level
  then/catch + `process.exit` block are embedded as pure functions, with
  the external article publisher passed in as an oracle and faults modelled
  with `Except`;
* the throttled queue (an external dependency) is modelled from the spec's
  single-slot next-allowed-time contract.
-/

set_option maxRecDepth 8192

/-- Repository identity `{username, name}` extracted from a git remote URL
(shape used by `parseRepository` in src/dev-to-git.ts). -/
structure Repository where
  username : String
  name : String
  deriving DecidableEq

/-- Modelled from the spec: the closed set of per-article outcome kinds
(created, updated, unchanged, error, malformed front matter).  The interface
file `dev-to-git.interface.ts` is not under src/; the two constructors the
exit decision compares against (`ERROR`, `FAILED_TO_EXTRACT_FRONT_MATTER`)
are the ones named in src/dev-to-git.ts lines 142-143. -/
inductive UpdateStatus where
  | created
  | updated
  | alreadyUpToDate
  | error
  | failedToExtractFrontMatter
  deriving DecidableEq

/-- Modelled from the spec: the outcome of one publish attempt carries at
minimum an identifier for the article and an `updateStatus` from the closed
kind set (spec §3); the interface file is not under src/. -/
structure ArticlePublishedStatus where
  articleId : Nat
  updateStatus : UpdateStatus
  deriving DecidableEq

/-- Modelled from the spec: the on-disk, repository-agnostic shape of one
article entry ("file path, article-ID fields", spec §3); the interface file
is not under src/. -/
structure ArticleConfigFile where
  id : Nat
  relativePathToArticle : String
  deriving DecidableEq

/-- An `ArticleConfigFile` with the resolved `Repository` attached, as built
by `readConfigFile` via the object spread in src/dev-to-git.ts lines 106-109. -/
structure ArticleConfig extends ArticleConfigFile where
  repository : Repository
  deriving DecidableEq

/-- Modelled from the spec: the CLI option record consumed by the core
(config path, token, repository URL, silent flag); the interface file is not
under src/.  Absent string options are `none`. -/
structure ConfigurationOptions where
  config : String
  devToToken : Option String
  repositoryUrl : Option String
  silent : Bool
  deriving DecidableEq

/-! ### The repository regular expression

`const repositoryRe: RegExp = /.*\/(.*)\/(.*)\.git/;` (src/dev-to-git.ts
line 19).  JavaScript `.` matches every character except an ECMAScript line
terminator (LF, CR, LINE SEPARATOR, PARAGRAPH SEPARATOR);
`String.prototype.match` with a non-global pattern attempts the match at
position 0, 1, ... and returns the first success; each `.*` is greedy and
backtracks from the longest candidate. -/

/-- Character class of the JavaScript `.`: any character except an
ECMAScript line terminator, i.e. LF, CR, U+2028 or U+2029. -/
def isDot (c : Char) : Bool :=
  c != '\n' && c != '\r' && c != '\u2028' && c != '\u2029'

/-- Literal tail `\.git` of the pattern: does the list start with
'.', 'g', 'i', 't'? -/
def matchDotGit : List Char → Bool
  | a :: b :: c :: d :: _ => a == '.' && b == 'g' && c == 'i' && d == 't'
  | _ => false

/-- Greedy `.*` followed by a continuation `k`: consume the longest run of
dot characters such that `k` succeeds on the remainder, backtracking from
the longest candidate, and return the consumed run together with the
continuation's result. -/
def greedyStar {β : Type} (k : List Char → Option β) : List Char → Option (List Char × β)
  | [] => (k []).map (fun b => ([], b))
  | c :: cs =>
    if isDot c then
      match greedyStar k cs with
      | some (p, b) => some (c :: p, b)
      | none => (k (c :: cs)).map (fun b => ([], b))
    else
      (k (c :: cs)).map (fun b => ([], b))

/-- Continuation for the final group: `\.git` with unit result. -/
def kGit (t : List Char) : Option Unit :=
  if matchDotGit t then some () else none

/-- Match `(.*)\.git` against a prefix of the input, returning the greedy
capture of the group. -/
def contG2 (s : List Char) : Option (List Char) :=
  (greedyStar kGit s).map Prod.fst

/-- Continuation after the first captured group: `\/(.*)\.git`. -/
def kSlashG2 : List Char → Option (List Char)
  | c :: u => if c == '/' then contG2 u else none
  | [] => none

/-- Match `(.*)\/(.*)\.git` against a prefix of the input, returning the two
greedy captures. -/
def contG1 (s : List Char) : Option (List Char × List Char) :=
  greedyStar kSlashG2 s

/-- Continuation after the leading `.*`: `\/(.*)\/(.*)\.git`. -/
def kSlashG1 : List Char → Option (List Char × List Char)
  | c :: u => if c == '/' then contG1 u else none
  | [] => none

/-- Attempt the whole pattern `.*\/(.*)\/(.*)\.git` at the start of the
input, returning the two captures. -/
def matchAt (s : List Char) : Option (List Char × List Char) :=
  (greedyStar kSlashG1 s).map Prod.snd

/-- Leftmost match: attempt the pattern at position 0, 1, ... and return the
first success, as JavaScript `String.prototype.match` does. -/
def reMatch : List Char → Option (List Char × List Char)
  | [] => none
  | c :: cs =>
    match matchAt (c :: cs) with
    | some r => some r
    | none => reMatch cs

/-- Embedding of `DevToGit.parseRepository` (src/dev-to-git.ts lines 57-72):
a falsy argument (absent or empty string) returns null before the pattern is
consulted; otherwise the match's two captures become `{username, name}`. -/
def parseRepository (repo : Option String) : Option Repository :=
  match repo with
  | none => none
  | some r =>
    if r.data.isEmpty then none
    else
      match reMatch r.data with
      | none => none
      | some (g1, g2) => some ⟨⟨g1⟩, ⟨g2⟩⟩

/-- Embedding of `DevToGit.extractRepository` (src/dev-to-git.ts lines
74-93).  The input is the manifest's declared repository URL; `none` stands
for every throwing path (unreadable or unparsable package.json, missing
`repository.url` attribute).  `Except.error ()` is the caught path: the
diagnostic is logged and an error is rethrown out of the constructor. -/
def extractRepository (manifestUrl : Option String) : Except Unit Repository :=
  match manifestUrl with
  | none => Except.error ()
  | some url =>
    match parseRepository (some url) with
    | none => Except.error ()
    | some r => Except.ok r

/-- Embedding of the constructor's resolution chain
`this.parseRepository(program.repositoryUrl) || this.extractRepository()`
(src/dev-to-git.ts line 47). -/
def resolveRepository (repositoryUrl manifestUrl : Option String) : Except Unit Repository :=
  match parseRepository repositoryUrl with
  | some r => Except.ok r
  | none => extractRepository manifestUrl

/-- Embedding of `DevToGit.readConfigFile` (src/dev-to-git.ts lines 99-110)
after JSON parsing: the parsed array of entries is mapped to entries with
the resolved repository attached (object spread keeps every other field). -/
def readConfigFile (repository : Repository) (files : List ArticleConfigFile) :
    List ArticleConfig :=
  files.map (fun f => ⟨f, repository⟩)

/-- Embedding of the awaited loop body sequence of `publishArticles`
(src/dev-to-git.ts lines 115-128): statuses are pushed one by one onto the
accumulator; a publish fault rejects the whole promise immediately. -/
def publishArticlesGo {ε : Type} (publish : ArticleConfig → Except ε ArticlePublishedStatus) :
    List ArticleConfig → List ArticlePublishedStatus → Except ε (List ArticlePublishedStatus)
  | [], acc => Except.ok acc
  | a :: rest, acc =>
    match publish a with
    | Except.ok st => publishArticlesGo publish rest (acc ++ [st])
    | Except.error e => Except.error e

/-- Embedding of `DevToGit.publishArticles` (src/dev-to-git.ts lines
112-129) over an already-loaded article list, with the external article
publisher (`new Article(conf, token).publishArticle()`) passed as an
oracle. -/
def publishArticles {ε : Type} (publish : ArticleConfig → Except ε ArticlePublishedStatus)
    (articles : List ArticleConfig) : Except ε (List ArticlePublishedStatus) :=
  publishArticlesGo publish articles []

/-- The failing-kind test of the exit decision (src/dev-to-git.ts lines
141-144): `updateStatus === ERROR || updateStatus === FAILED_TO_EXTRACT_FRONT_MATTER`. -/
def isErrorStatus (s : ArticlePublishedStatus) : Bool :=
  s.updateStatus == UpdateStatus.error || s.updateStatus == UpdateStatus.failedToExtractFrontMatter

/-- Embedding of the `forEach` exit loop (src/dev-to-git.ts lines 140-148),
instrumented with the number of entries the callback inspects: `process.exit(1)`
terminates the process at the first failing entry, so later entries are not
visited.  Returns (entries inspected, exit call if any). -/
def exitLoop : List ArticlePublishedStatus → Nat × Option Nat
  | [] => (0, none)
  | a :: rest =>
    if isErrorStatus a then (1, some 1)
    else
      let r := exitLoop rest
      (r.1 + 1, r.2)

/-- The process exit code produced after a delivered status list: the exit
call from the loop if it fires, otherwise the natural exit code 0. -/
def exitCodeOf (statuses : List ArticlePublishedStatus) : Nat :=
  match (exitLoop statuses).2 with
  | some c => c
  | none => 0

/-- Observable log events of the top-level block (src/dev-to-git.ts lines
133-154): the repository diagnostic (lines 86-90), the missing-token
diagnostic (line 50), the formatted per-article summary (line 138), and the
generic publish-failure message (line 151). -/
inductive LogEvent where
  | repoDiagnostic
  | tokenDiagnostic
  | summary (statuses : List ArticlePublishedStatus)
  | genericPublishError
  deriving DecidableEq

/-- Embedding of the top-level `publishArticles().then(...).catch(...)`
block (src/dev-to-git.ts lines 134-154): on resolution the summary is
logged and the exit loop runs; on rejection the generic error is logged and
the process exits 1. -/
def pipelineMain {ε : Type} (publish : ArticleConfig → Except ε ArticlePublishedStatus)
    (articles : List ArticleConfig) : List LogEvent × Nat :=
  match publishArticles publish articles with
  | Except.ok statuses => ([LogEvent.summary statuses], exitCodeOf statuses)
  | Except.error _ => ([LogEvent.genericPublishError], 1)

/-- JavaScript falsiness of the token option (src/dev-to-git.ts line 49):
absent or the empty string. -/
def tokenFalsy : Option String → Bool
  | none => true
  | some t => t == ""

/-- Embedding of a whole run (constructor lines 28-55 followed by the
top-level block): repository resolution happens first and a failure there
terminates the program with the repository diagnostic before any article is
read or published; then the token falsiness check; then the pipeline. -/
def programRun {ε : Type} (repositoryUrl manifestUrl devToToken : Option String)
    (publish : ArticleConfig → Except ε ArticlePublishedStatus)
    (files : List ArticleConfigFile) : List LogEvent × Nat :=
  match resolveRepository repositoryUrl manifestUrl with
  | Except.error _ => ([LogEvent.repoDiagnostic], 1)
  | Except.ok repo =>
    if tokenFalsy devToToken then ([LogEvent.tokenDiagnostic], 1)
    else pipelineMain publish (readConfigFile repo files)

/-! ### Timing model of the throttled queue -/

/-- The fixed upload interval constant (src/dev-to-git.ts line 20). -/
def ARTICLE_UPLOAD_INTERVAL : Nat := 3000

/-- The interval handed to `throttledQueue(1, ARTICLE_UPLOAD_INTERVAL)`
(src/dev-to-git.ts line 54): the constant, whatever the parsed CLI options
are — no flag feeds it. -/
def queueInterval (_ : ConfigurationOptions) : Nat := ARTICLE_UPLOAD_INTERVAL

/-- Modelled from the spec: the single-slot rate limiter of the external
`throttled-queue` dependency, as its contract is stated in spec §4.4/§5 —
an internal next-allowed-execution-time cursor; a submission starts at
`max now nextAllowed`; the cursor then advances to start + interval; the
pipeline awaits each unit (of duration `d`) before submitting the next.
Returns the start time of every publish call. -/
def scheduleStarts (interval : Nat) : Nat → Nat → List Nat → List Nat
  | _, _, [] => []
  | now, nextAllowed, d :: ds =>
    let start := max now nextAllowed
    start :: scheduleStarts interval (start + d) (start + interval) ds

/-- Start times of the publish calls of one run, given each call's duration:
the loop starts at time 0 with the limiter fresh, using the fixed interval
from the parsed options. -/
def pipelineSchedule (opts : ConfigurationOptions) (durations : List Nat) : List Nat :=
  scheduleStarts (queueInterval opts) 0 0 durations

/-! ### Concrete sample data used by witnesses and counterexamples -/

/-- A success-kind status sample. -/
def stCreated : ArticlePublishedStatus := ⟨1, UpdateStatus.created⟩

/-- A second success-kind status sample. -/
def stUpdated : ArticlePublishedStatus := ⟨2, UpdateStatus.updated⟩

/-- An error-kind status sample. -/
def stError : ArticlePublishedStatus := ⟨3, UpdateStatus.error⟩

/-- A sample repository identity. -/
def sampleRepo : Repository := ⟨"alice", "blog"⟩

/-- A sample configuration entry. -/
def cfgFileA : ArticleConfigFile := ⟨1, "blog/a.md"⟩

/-- A second sample configuration entry. -/
def cfgFileB : ArticleConfigFile := ⟨2, "blog/b.md"⟩

/-- A third sample configuration entry. -/
def cfgFileC : ArticleConfigFile := ⟨3, "blog/c.md"⟩

/-- A sample article configuration. -/
def cfgA : ArticleConfig := ⟨cfgFileA, sampleRepo⟩

/-- A second sample article configuration. -/
def cfgB : ArticleConfig := ⟨cfgFileB, sampleRepo⟩

/-- A third sample article configuration. -/
def cfgC : ArticleConfig := ⟨cfgFileC, sampleRepo⟩

/-- Sample CLI options. -/
def sampleOpts : ConfigurationOptions := ⟨"./dev-to-git.json", some "token", none, false⟩

/-- Sample publish outcome oracle: article 1 resolves with a created
status, every other article resolves with an error-kind status. -/
def pubW (a : ArticleConfig) : ArticlePublishedStatus :=
  if a.id == 1 then stCreated else stError

/-- Sample faulting publisher: article 2 raises a fault, every other
article resolves with a created status. -/
def publishF (a : ArticleConfig) : Except String ArticlePublishedStatus :=
  if a.id == 2 then Except.error "boom" else Except.ok stCreated

/-! ### Lemmas about the greedy star -/

/-- Soundness of the greedy star: a successful result decomposes the input
into the consumed dot-run and a remainder accepted by the continuation. -/
theorem greedyStar_sound {β : Type} (k : List Char → Option β) :
    ∀ (s p : List Char) (b : β), greedyStar k s = some (p, b) →
      ∃ t, s = p ++ t ∧ (∀ c ∈ p, isDot c = true) ∧ k t = some b := by
  intro s
  induction s with
  | nil =>
    intro p b h
    simp only [greedyStar, Option.map_eq_some'] at h
    obtain ⟨a, ha, heq⟩ := h
    injection heq with h1 h2
    subst h1; subst h2
    exact ⟨[], rfl, by simp, ha⟩
  | cons c cs ih =>
    intro p b h
    simp only [greedyStar] at h
    by_cases hc : isDot c = true
    · rw [if_pos hc] at h
      cases hg : greedyStar k cs with
      | some pb =>
        obtain ⟨q, b'⟩ := pb
        rw [hg] at h
        injection h with h'
        injection h' with h1 h2
        subst h1; subst h2
        obtain ⟨t, hts, hdots, hk⟩ := ih q b' hg
        refine ⟨t, by simp [hts], ?_, hk⟩
        intro x hx
        rcases List.mem_cons.mp hx with rfl | hx
        · exact hc
        · exact hdots x hx
      | none =>
        rw [hg] at h
        simp only [Option.map_eq_some'] at h
        obtain ⟨a, ha, heq⟩ := h
        injection heq with h1 h2
        subst h1; subst h2
        exact ⟨c :: cs, rfl, by simp, ha⟩
    · rw [if_neg hc] at h
      simp only [Option.map_eq_some'] at h
      obtain ⟨a, ha, heq⟩ := h
      injection heq with h1 h2
      subst h1; subst h2
      exact ⟨c :: cs, rfl, by simp, ha⟩

/-- Completeness of the greedy star: if some dot-run prefix leads to a
remainder accepted by the continuation, the star succeeds. -/
theorem greedyStar_complete {β : Type} (k : List Char → Option β) :
    ∀ (p t : List Char) (b : β), (∀ c ∈ p, isDot c = true) → k t = some b →
      (greedyStar k (p ++ t)).isSome := by
  intro p
  induction p with
  | nil =>
    intro t b _ hk
    cases t with
    | nil => simp [greedyStar, hk]
    | cons c cs =>
      simp only [List.nil_append, greedyStar]
      by_cases hc : isDot c = true
      · rw [if_pos hc]
        cases hg : greedyStar k cs with
        | some pb => simp
        | none => simp [hk]
      · rw [if_neg hc]
        simp [hk]
  | cons c p' ih =>
    intro t b hd hk
    have hc : isDot c = true := hd c (by simp)
    have hih := ih t b (fun x hx => hd x (by simp [hx])) hk
    obtain ⟨pb, hq⟩ := Option.isSome_iff_exists.mp hih
    obtain ⟨q, b2⟩ := pb
    simp [greedyStar, hc, hq]

/-- Maximality of the greedy star: the consumed run is at least as long as
any dot-run prefix whose remainder the continuation accepts. -/
theorem greedyStar_maximal {β : Type} (k : List Char → Option β) :
    ∀ (p' t' p : List Char) (b : β), greedyStar k (p' ++ t') = some (p, b) →
      (∀ c ∈ p', isDot c = true) → (∃ b', k t' = some b') →
      p'.length ≤ p.length := by
  intro p'
  induction p' with
  | nil =>
    intro t' p b _ _ _
    simp
  | cons c p'' ih =>
    intro t' p b hm hd hk
    have hc : isDot c = true := hd c (by simp)
    obtain ⟨b', hkb⟩ := hk
    have hcomp := greedyStar_complete k p'' t' b' (fun x hx => hd x (by simp [hx])) hkb
    obtain ⟨pb, hq⟩ := Option.isSome_iff_exists.mp hcomp
    obtain ⟨q, b2⟩ := pb
    simp only [List.cons_append, greedyStar, hc, if_true, List.append_eq] at hm
    rw [hq] at hm
    injection hm with h'
    injection h' with h1 h2
    subst h1
    have hle := ih t' q b2 hq (fun x hx => hd x (by simp [hx])) ⟨b', hkb⟩
    simp only [List.length_cons]
    omega

/-! ### Lemmas about the continuations of the pattern -/

/-- A list accepted by `matchDotGit` starts with the four literal characters. -/
theorem matchDotGit_shape : ∀ t : List Char, matchDotGit t = true →
    ∃ rest, t = '.' :: 'g' :: 'i' :: 't' :: rest := by
  intro t h
  rcases t with _ | ⟨a, _ | ⟨b, _ | ⟨c, _ | ⟨d, r⟩⟩⟩⟩ <;> simp [matchDotGit] at h
  obtain ⟨⟨⟨rfl, rfl⟩, rfl⟩, rfl⟩ := h
  exact ⟨r, rfl⟩

/-- Inversion for the `\.git` continuation. -/
theorem kGit_sound {t : List Char} {u : Unit} (h : kGit t = some u) :
    ∃ rest, t = '.' :: 'g' :: 'i' :: 't' :: rest := by
  by_cases hg : matchDotGit t = true
  · exact matchDotGit_shape t hg
  · simp [kGit, hg] at h

/-- The `\.git` continuation accepts the literal tail. -/
theorem kGit_complete (rest : List Char) :
    kGit ('.' :: 'g' :: 'i' :: 't' :: rest) = some () := rfl

/-- Soundness of `(.*)\.git`: the capture is a dot-run followed by `.git`. -/
theorem contG2_sound {s g : List Char} (h : contG2 s = some g) :
    ∃ rest, s = g ++ '.' :: 'g' :: 'i' :: 't' :: rest ∧ ∀ c ∈ g, isDot c = true := by
  simp only [contG2, Option.map_eq_some'] at h
  obtain ⟨⟨p, u⟩, hp, heq⟩ := h
  simp only at heq
  subst heq
  obtain ⟨t, hts, hd, hk⟩ := greedyStar_sound kGit s p u hp
  obtain ⟨rest, hrest⟩ := kGit_sound hk
  exact ⟨rest, by rw [hts, hrest], hd⟩

/-- Completeness of `(.*)\.git`. -/
theorem contG2_complete (g rest : List Char) (hd : ∀ c ∈ g, isDot c = true) :
    (contG2 (g ++ '.' :: 'g' :: 'i' :: 't' :: rest)).isSome := by
  have h := greedyStar_complete kGit g ('.' :: 'g' :: 'i' :: 't' :: rest) () hd (kGit_complete rest)
  obtain ⟨a, ha⟩ := Option.isSome_iff_exists.mp h
  simp [contG2, ha]

/-- Inversion for the `\/(.*)\.git` continuation. -/
theorem kSlashG2_sound {t g : List Char} (h : kSlashG2 t = some g) :
    ∃ u, t = '/' :: u ∧ contG2 u = some g := by
  cases t with
  | nil => simp [kSlashG2] at h
  | cons c u =>
    by_cases hc : c = '/'
    · subst hc
      simp only [kSlashG2, beq_self_eq_true, if_true] at h
      exact ⟨u, rfl, h⟩
    · simp [kSlashG2, hc] at h

/-- Soundness of `(.*)\/(.*)\.git`: the input decomposes as the two captures
separated by a slash and followed by `.git`, both captures being dot-runs. -/
theorem contG1_sound {s g1 g2 : List Char} (h : contG1 s = some (g1, g2)) :
    ∃ rest, s = g1 ++ '/' :: g2 ++ '.' :: 'g' :: 'i' :: 't' :: rest ∧
      (∀ c ∈ g1, isDot c = true) ∧ (∀ c ∈ g2, isDot c = true) := by
  obtain ⟨t, hts, hd1, hk⟩ := greedyStar_sound kSlashG2 s g1 g2 h
  obtain ⟨u, rfl, hc2⟩ := kSlashG2_sound hk
  obtain ⟨rest, rfl, hd2⟩ := contG2_sound hc2
  exact ⟨rest, by rw [hts]; simp, hd1, hd2⟩

/-- Completeness of `(.*)\/(.*)\.git`. -/
theorem contG1_complete (x y rest : List Char) (hx : ∀ c ∈ x, isDot c = true)
    (hy : ∀ c ∈ y, isDot c = true) :
    (contG1 (x ++ '/' :: y ++ '.' :: 'g' :: 'i' :: 't' :: rest)).isSome := by
  obtain ⟨g, hg⟩ := Option.isSome_iff_exists.mp (contG2_complete y rest hy)
  have h := greedyStar_complete kSlashG2 x ('/' :: (y ++ '.' :: 'g' :: 'i' :: 't' :: rest)) g hx
    (by simp [kSlashG2, hg])
  simpa [contG1] using h

/-- Greediness of the first group: the second capture never contains a
slash (a slash inside it would let the first group extend further). -/
theorem contG1_g2_no_slash {s g1 g2 : List Char} (h : contG1 s = some (g1, g2)) :
    '/' ∉ g2 := by
  intro hmem
  obtain ⟨a, b, rfl⟩ := List.append_of_mem hmem
  obtain ⟨rest, hs, hd1, hd2⟩ := contG1_sound h
  have hd_a : ∀ c ∈ a, isDot c = true := fun c hc => hd2 c (by simp [hc])
  have hd_b : ∀ c ∈ b, isDot c = true := fun c hc => hd2 c (by simp [hc])
  obtain ⟨g, hg⟩ := Option.isSome_iff_exists.mp (contG2_complete b rest hd_b)
  have hs2 : s = (g1 ++ '/' :: a) ++ ('/' :: (b ++ '.' :: 'g' :: 'i' :: 't' :: rest)) := by
    rw [hs]; simp
  have hdots : ∀ c ∈ g1 ++ '/' :: a, isDot c = true := by
    intro c hc
    rcases List.mem_append.mp hc with hc | hc
    · exact hd1 c hc
    · rcases List.mem_cons.mp hc with rfl | hc
      · rfl
      · exact hd_a c hc
  have hmax := greedyStar_maximal kSlashG2 (g1 ++ '/' :: a)
    ('/' :: (b ++ '.' :: 'g' :: 'i' :: 't' :: rest)) g1 (a ++ '/' :: b)
    (by rw [← hs2]; exact h) hdots ⟨g, by simp [kSlashG2, hg]⟩
  simp [List.length_append] at hmax

/-- Inversion for the `\/(.*)\/(.*)\.git` continuation. -/
theorem kSlashG1_sound {t : List Char} {r : List Char × List Char}
    (h : kSlashG1 t = some r) : ∃ u, t = '/' :: u ∧ contG1 u = some r := by
  cases t with
  | nil => simp [kSlashG1] at h
  | cons c u =>
    by_cases hc : c = '/'
    · subst hc
      simp only [kSlashG1, beq_self_eq_true, if_true] at h
      exact ⟨u, rfl, h⟩
    · simp [kSlashG1, hc] at h

/-- Soundness of a whole-pattern attempt: a success decomposes the input and
both captures are slash-free (by greediness of the stars to their left). -/
theorem matchAt_sound {s g1 g2 : List Char} (h : matchAt s = some (g1, g2)) :
    (∃ p rest, s = p ++ '/' :: g1 ++ '/' :: g2 ++ '.' :: 'g' :: 'i' :: 't' :: rest) ∧
      '/' ∉ g1 ∧ '/' ∉ g2 := by
  simp only [matchAt, Option.map_eq_some'] at h
  obtain ⟨⟨p, r⟩, hp, heq⟩ := h
  simp only at heq
  subst heq
  obtain ⟨t, hts, hdp, hk⟩ := greedyStar_sound kSlashG1 s p (g1, g2) hp
  obtain ⟨u, rfl, hc1⟩ := kSlashG1_sound hk
  obtain ⟨rest, hu, hd1, hd2⟩ := contG1_sound hc1
  refine ⟨⟨p, rest, by rw [hts, hu]; simp⟩, ?_, contG1_g2_no_slash hc1⟩
  intro hmem
  obtain ⟨a, b, hab⟩ := List.append_of_mem hmem
  subst hab
  have hd_a : ∀ c ∈ a, isDot c = true := fun c hc => hd1 c (by simp [hc])
  have hd_b : ∀ c ∈ b, isDot c = true := fun c hc => hd1 c (by simp [hc])
  obtain ⟨r2, hr2⟩ := Option.isSome_iff_exists.mp
    (contG1_complete b g2 rest hd_b hd2)
  have hs2 : s = (p ++ '/' :: a) ++
      ('/' :: (b ++ '/' :: g2 ++ '.' :: 'g' :: 'i' :: 't' :: rest)) := by
    rw [hts, hu]; simp
  have hdots : ∀ c ∈ p ++ '/' :: a, isDot c = true := by
    intro c hc
    rcases List.mem_append.mp hc with hc | hc
    · exact hdp c hc
    · rcases List.mem_cons.mp hc with rfl | hc
      · rfl
      · exact hd_a c hc
  have hmax := greedyStar_maximal kSlashG1 (p ++ '/' :: a)
    ('/' :: (b ++ '/' :: g2 ++ '.' :: 'g' :: 'i' :: 't' :: rest)) p (a ++ '/' :: b, g2)
    (by rw [← hs2]; exact hp) hdots
    ⟨r2, by simp only [kSlashG1, beq_self_eq_true, if_true]; exact hr2⟩
  simp [List.length_append] at hmax

/-- Completeness of a whole-pattern attempt starting at a slash. -/
theorem matchAt_complete (x y rest : List Char) (hx : ∀ c ∈ x, isDot c = true)
    (hy : ∀ c ∈ y, isDot c = true) :
    (matchAt ('/' :: (x ++ '/' :: y ++ '.' :: 'g' :: 'i' :: 't' :: rest))).isSome := by
  obtain ⟨r, hr⟩ := Option.isSome_iff_exists.mp (contG1_complete x y rest hx hy)
  have h := greedyStar_complete kSlashG1 []
    ('/' :: (x ++ '/' :: y ++ '.' :: 'g' :: 'i' :: 't' :: rest)) r (by simp)
    (by simp only [kSlashG1, beq_self_eq_true, if_true]; exact hr)
  simp only [List.nil_append] at h
  obtain ⟨a, ha⟩ := Option.isSome_iff_exists.mp h
  unfold matchAt
  rw [ha]
  rfl

/-- Soundness of the leftmost search: a match decomposes the input string
and yields slash-free captures. -/
theorem reMatch_sound : ∀ (s g1 g2 : List Char), reMatch s = some (g1, g2) →
    (∃ pre rest, s = pre ++ '/' :: g1 ++ '/' :: g2 ++ '.' :: 'g' :: 'i' :: 't' :: rest) ∧
      '/' ∉ g1 ∧ '/' ∉ g2 := by
  intro s
  induction s with
  | nil => intro g1 g2 h; simp [reMatch] at h
  | cons c cs ih =>
    intro g1 g2 h
    simp only [reMatch] at h
    cases hm : matchAt (c :: cs) with
    | some r =>
      rw [hm] at h
      injection h with h'
      subst h'
      exact matchAt_sound hm
    | none =>
      rw [hm] at h
      obtain ⟨⟨pre, rest, hs⟩, h1, h2⟩ := ih g1 g2 h
      exact ⟨⟨c :: pre, rest, by rw [hs]; rfl⟩, h1, h2⟩

/-- Completeness of the leftmost search: if an attempt succeeds at some
position, the search succeeds. -/
theorem reMatch_complete (a : List Char) :
    ∀ (c : Char) (cs : List Char), (matchAt (c :: cs)).isSome →
      (reMatch (a ++ c :: cs)).isSome := by
  induction a with
  | nil =>
    intro c cs h
    obtain ⟨r, hr⟩ := Option.isSome_iff_exists.mp h
    simp [reMatch, hr]
  | cons d a' ih =>
    intro c cs h
    simp only [List.cons_append, reMatch]
    cases hm : matchAt (d :: (a' ++ c :: cs)) with
    | some r => simp
    | none => exact ih c cs h

/-- Soundness of `parseRepository`: a parsed repository's username and name
are slash-free and sit verbatim between slashes immediately before `.git`
in the input. -/
theorem parseRepository_sound {s u n : String}
    (h : parseRepository (some s) = some ⟨u, n⟩) :
    ('/' ∉ u.data ∧ '/' ∉ n.data) ∧
      ∃ pre rest, s.data =
        pre ++ '/' :: u.data ++ '/' :: n.data ++ '.' :: 'g' :: 'i' :: 't' :: rest := by
  simp only [parseRepository] at h
  by_cases he : s.data.isEmpty
  · rw [if_pos he] at h
    exact absurd h (by simp)
  · rw [if_neg he] at h
    cases hm : reMatch s.data with
    | none => rw [hm] at h; exact absurd h (by simp)
    | some r =>
      obtain ⟨g1, g2⟩ := r
      rw [hm] at h
      injection h with h'
      injection h' with hu hn
      obtain ⟨hdec, h1, h2⟩ := reMatch_sound s.data g1 g2 hm
      subst hu; subst hn
      exact ⟨⟨h1, h2⟩, hdec⟩

/-- A string whose character list is nonempty and matched by the pattern
parses to some repository. -/
theorem parseRepository_isSome_of_reMatch {s : String} {g1 g2 : List Char}
    (hne : s.data.isEmpty = false) (h : reMatch s.data = some (g1, g2)) :
    (parseRepository (some s)).isSome := by
  simp [parseRepository, hne, h]

/-- Completeness of `parseRepository`: any string containing
`/<run>/<run>.git` with line-terminator-free runs parses to some
repository. -/
theorem parseRepository_complete (pre x y post : List Char)
    (hx' : ∀ c ∈ x, isDot c = true) (hy' : ∀ c ∈ y, isDot c = true) :
    (parseRepository
      (some ⟨pre ++ '/' :: x ++ '/' :: y ++ '.' :: 'g' :: 'i' :: 't' :: post⟩)).isSome := by
  have hAt := matchAt_complete x y post hx' hy'
  have hre := reMatch_complete pre '/' (x ++ '/' :: y ++ '.' :: 'g' :: 'i' :: 't' :: post) hAt
  obtain ⟨r, hr⟩ := Option.isSome_iff_exists.mp hre
  obtain ⟨g1, g2⟩ := r
  have hr' : reMatch (pre ++ '/' :: x ++ '/' :: y ++ '.' :: 'g' :: 'i' :: 't' :: post) =
      some (g1, g2) := by simpa using hr
  exact parseRepository_isSome_of_reMatch (by cases pre <;> rfl) hr'

/-! ### Lemmas about the publication pipeline and the exit decision -/

/-- When every publish call on the remaining list resolves, the loop appends
exactly the statuses of those calls, in order, after the accumulator. -/
theorem publishArticlesGo_ok {ε : Type} (publish : ArticleConfig → Except ε ArticlePublishedStatus)
    (pub : ArticleConfig → ArticlePublishedStatus) :
    ∀ (l : List ArticleConfig) (acc : List ArticlePublishedStatus),
      (∀ a ∈ l, publish a = Except.ok (pub a)) →
      publishArticlesGo publish l acc = Except.ok (acc ++ l.map pub) := by
  intro l
  induction l with
  | nil => intro acc _; simp [publishArticlesGo]
  | cons a rest ih =>
    intro acc h
    have ha : publish a = Except.ok (pub a) := h a (by simp)
    simp only [publishArticlesGo, ha]
    rw [ih (acc ++ [pub a]) (fun x hx => h x (by simp [hx]))]
    simp

/-- When every publish call before `bad` resolves and `bad` faults, the loop
rejects with that fault, whatever the accumulator and the remaining list. -/
theorem publishArticlesGo_error {ε : Type}
    (publish : ArticleConfig → Except ε ArticlePublishedStatus)
    (bad : ArticleConfig) (post : List ArticleConfig) (f : ε)
    (hbad : publish bad = Except.error f) :
    ∀ (pre : List ArticleConfig), (∀ a ∈ pre, ∃ st, publish a = Except.ok st) →
      ∀ acc, publishArticlesGo publish (pre ++ bad :: post) acc = Except.error f := by
  intro pre
  induction pre with
  | nil => intro _ acc; simp [publishArticlesGo, hbad]
  | cons a pre' ih =>
    intro h acc
    obtain ⟨st, hst⟩ := h a (by simp)
    simp only [List.cons_append, publishArticlesGo, hst]
    exact ih (fun x hx => h x (by simp [hx])) (acc ++ [st])

/-- The exit call of the forEach loop fires exactly when some status is of a
failing kind. -/
theorem exitLoop_snd (sts : List ArticlePublishedStatus) :
    (exitLoop sts).2 = if sts.any isErrorStatus then some 1 else none := by
  induction sts with
  | nil => simp [exitLoop]
  | cons a rest ih =>
    by_cases ha : isErrorStatus a = true
    · simp [exitLoop, ha]
    · simp [exitLoop, ha, ih]

/-- The exit code after a delivered status list is 1 when some status is of
a failing kind and 0 otherwise. -/
theorem exitCodeOf_eq (sts : List ArticlePublishedStatus) :
    exitCodeOf sts = if sts.any isErrorStatus then 1 else 0 := by
  rw [exitCodeOf, exitLoop_snd]
  by_cases h : sts.any isErrorStatus = true <;> simp [h]

/-- The forEach loop inspects entries only up to and including the first
failing one; when no entry fails it inspects the whole list. -/
theorem exitLoop_fst (sts : List ArticlePublishedStatus) :
    (exitLoop sts).1 =
      if sts.any isErrorStatus then
        (sts.takeWhile (fun s => ! isErrorStatus s)).length + 1
      else sts.length := by
  induction sts with
  | nil => simp [exitLoop]
  | cons a rest ih =>
    by_cases ha : isErrorStatus a = true
    · simp [exitLoop, ha]
    · by_cases hrest : rest.any isErrorStatus = true
      · simp [exitLoop, ha, hrest, ih]
      · simp [exitLoop, ha, hrest, ih]

/-! ### Lemmas about the schedule of publish calls -/

/-- The first scheduled start is no earlier than the limiter's next allowed
time. -/
theorem scheduleStarts_head (interval : Nat) :
    ∀ (now na d : Nat) (ds : List Nat) (s : Nat),
      (scheduleStarts interval now na (d :: ds))[0]? = some s → na ≤ s := by
  intro now na d ds s h
  simp only [scheduleStarts, List.getElem?_cons_zero] at h
  injection h with h'
  omega

/-- Consecutive scheduled starts are spaced by at least the interval. -/
theorem scheduleStarts_spacing (interval : Nat) :
    ∀ (ds : List Nat) (now na i s1 s2 : Nat),
      (scheduleStarts interval now na ds)[i]? = some s1 →
      (scheduleStarts interval now na ds)[i + 1]? = some s2 →
      s1 + interval ≤ s2 := by
  intro ds
  induction ds with
  | nil => intro now na i s1 s2 h1 _; simp [scheduleStarts] at h1
  | cons d ds ih =>
    intro now na i s1 s2 h1 h2
    cases i with
    | zero =>
      simp only [scheduleStarts, List.getElem?_cons_zero, List.getElem?_cons_succ] at h1 h2
      injection h1 with h1'
      cases ds with
      | nil => simp [scheduleStarts] at h2
      | cons d2 ds2 =>
        have hhead := scheduleStarts_head interval (max now na + d) (max now na + interval)
          d2 ds2 s2 h2
        omega
    | succ j =>
      simp only [scheduleStarts, List.getElem?_cons_succ] at h1 h2
      exact ih (max now na + d) (max now na + interval) j s1 s2 h1 h2

/-! ### The claims -/

/-- Claim C1: for every input list of N article configurations, assuming
every publish call resolves with a status (error-kind statuses included)
rather than raising a fault, `publishArticles` resolves with a status list
of length N whose i-th element is the outcome of publishing the i-th input
configuration, for all i — an error-kind status for one article does not
prevent the remaining articles from being attempted and recorded (the
oracle `pub` is arbitrary and may return error-kind statuses anywhere). -/
theorem claim_C1 (ε : Type) (publish : ArticleConfig → Except ε ArticlePublishedStatus)
    (pub : ArticleConfig → ArticlePublishedStatus) (articles : List ArticleConfig)
    (hres : ∀ a ∈ articles, publish a = Except.ok (pub a)) :
    publishArticles publish articles = Except.ok (articles.map pub) ∧
      (articles.map pub).length = articles.length ∧
      ∀ i : Nat, (articles.map pub)[i]? = (articles[i]?).map pub := by
  refine ⟨?_, by simp, fun i => by simp⟩
  have h := publishArticlesGo_ok publish pub articles [] hres
  rw [publishArticles, h]
  simp

/-- Witness for C1: a concrete two-article run whose second publish call
resolves with an error-kind status. -/
theorem claim_C1_witness :
    publishArticles (fun a => (Except.ok (pubW a) : Except Unit ArticlePublishedStatus))
        [cfgA, cfgB] = Except.ok ([cfgA, cfgB].map pubW) ∧
      ([cfgA, cfgB].map pubW).length = ([cfgA, cfgB] : List ArticleConfig).length ∧
      ∀ i : Nat, ([cfgA, cfgB].map pubW)[i]? =
        (([cfgA, cfgB] : List ArticleConfig)[i]?).map pubW :=
  claim_C1 Unit (fun a => Except.ok (pubW a)) pubW [cfgA, cfgB] (fun _ _ => rfl)

/-- Claim C2 counterexample: on the status list [error, created] the
forEach exit decision inspects only one entry, not all two — process.exit(1)
fires at the first failing entry, so the loop does short-circuit. -/
theorem claim_C2_counterexample :
    ¬ (exitLoop [stError, stCreated]).1 =
        ([stError, stCreated] : List ArticlePublishedStatus).length := by
  decide

/-- Claim C2 amended: the exit-code decision short-circuits — it inspects
entries only up to and including the first one whose kind is error or
malformed-front-matter (process.exit(1) terminates the process there), and
every entry only when none fails — while the exit code it produces still
equals the pure any-error reduction over the full status list (the full
per-article summary is logged before this loop runs, see `pipelineMain`). -/
theorem claim_C2_amended (sts : List ArticlePublishedStatus) :
    (exitLoop sts).1 =
        (if sts.any isErrorStatus then
          (sts.takeWhile (fun s => ! isErrorStatus s)).length + 1
        else sts.length) ∧
      exitCodeOf sts = (if sts.any isErrorStatus then 1 else 0) :=
  ⟨exitLoop_fst sts, exitCodeOf_eq sts⟩

/-- Witness for the amended C2 at a concrete status list. -/
theorem claim_C2_witness :
    (exitLoop [stCreated, stError]).1 =
        (if ([stCreated, stError] : List ArticlePublishedStatus).any isErrorStatus then
          (([stCreated, stError] : List ArticlePublishedStatus).takeWhile
            (fun s => ! isErrorStatus s)).length + 1
        else ([stCreated, stError] : List ArticlePublishedStatus).length) ∧
      exitCodeOf [stCreated, stError] =
        (if ([stCreated, stError] : List ArticlePublishedStatus).any isErrorStatus then 1
        else 0) :=
  claim_C2_amended [stCreated, stError]

/-- Claim C3: the process exit code after a delivered status list is
non-zero iff some status has kind error or malformed-front-matter; in
particular [success, error, success] fails the run, [success, success] and
the empty list succeed. -/
theorem claim_C3 :
    (∀ sts : List ArticlePublishedStatus,
        exitCodeOf sts ≠ 0 ↔ ∃ s ∈ sts, isErrorStatus s = true) ∧
      exitCodeOf [stCreated, stError, stUpdated] = 1 ∧
      exitCodeOf [stCreated, stUpdated] = 0 ∧
      exitCodeOf [] = 0 := by
  refine ⟨fun sts => ?_, by decide, by decide, by decide⟩
  rw [exitCodeOf_eq]
  by_cases h : sts.any isErrorStatus = true
  · rw [if_pos h]
    exact iff_of_true one_ne_zero (List.any_eq_true.mp h)
  · rw [if_neg h]
    exact iff_of_false (fun h0 => h0 rfl) (fun hex => h (List.any_eq_true.mpr hex))

/-- Witness for C3 at a concrete status list. -/
theorem claim_C3_witness :
    exitCodeOf [stError] ≠ 0 ↔ ∃ s ∈ [stError], isErrorStatus s = true :=
  claim_C3.1 [stError]

/-- Claim C4: if one publish call raises an unrecoverable fault (rather
than resolving to an error-kind status), the pipeline rejects immediately
with that fault: no status list is delivered, the generic error message is
logged instead of the per-article summary, and the process exits with code
1.  The statement holds for every `post` and every behaviour of `publish`
on `post`, so configurations after the faulting one are never attempted. -/
theorem claim_C4 (ε : Type) (publish : ArticleConfig → Except ε ArticlePublishedStatus)
    (pre : List ArticleConfig) (bad : ArticleConfig) (post : List ArticleConfig) (f : ε)
    (hpre : ∀ a ∈ pre, ∃ st, publish a = Except.ok st)
    (hbad : publish bad = Except.error f) :
    publishArticles publish (pre ++ bad :: post) = Except.error f ∧
      pipelineMain publish (pre ++ bad :: post) = ([LogEvent.genericPublishError], 1) := by
  have h1 : publishArticles publish (pre ++ bad :: post) = Except.error f :=
    publishArticlesGo_error publish bad post f hbad pre hpre []
  exact ⟨h1, by simp [pipelineMain, h1]⟩

/-- Witness for C4: a three-article run whose second publish call faults. -/
theorem claim_C4_witness :
    publishArticles publishF ([cfgA] ++ cfgB :: [cfgC]) = Except.error "boom" ∧
      pipelineMain publishF ([cfgA] ++ cfgB :: [cfgC]) =
        ([LogEvent.genericPublishError], 1) :=
  claim_C4 String publishF [cfgA] cfgB [cfgC] "boom"
    (by intro a ha; simp at ha; subst ha; exact ⟨stCreated, rfl⟩) rfl

/-- Claim C5: for any run, the start of each publish call occurs no earlier
than 3000 ms after the start of the previous one, the very first call
starts without artificial delay, and the interval handed to the queue is
the fixed constant whatever the parsed CLI options are. -/
theorem claim_C5 (opts : ConfigurationOptions) (durations : List Nat) :
    queueInterval opts = 3000 ∧
      (∀ i s1 s2 : Nat, (pipelineSchedule opts durations)[i]? = some s1 →
        (pipelineSchedule opts durations)[i + 1]? = some s2 → s1 + 3000 ≤ s2) ∧
      (∀ d ds, durations = d :: ds → (pipelineSchedule opts durations)[0]? = some 0) := by
  refine ⟨rfl, fun i s1 s2 h1 h2 => ?_, fun d ds hd => ?_⟩
  · exact scheduleStarts_spacing (queueInterval opts) durations 0 0 i s1 s2 h1 h2
  · subst hd
    simp [pipelineSchedule, scheduleStarts]

/-- Witness for C5: a two-call run with a short first call — the second
call still starts exactly one interval after the first. -/
theorem claim_C5_witness :
    queueInterval sampleOpts = 3000 ∧ 0 + 3000 ≤ 3000 ∧
      (pipelineSchedule sampleOpts [100, 5000])[0]? = some 0 :=
  ⟨(claim_C5 sampleOpts [100, 5000]).1,
    (claim_C5 sampleOpts [100, 5000]).2.1 0 0 3000 (by decide) (by decide),
    (claim_C5 sampleOpts [100, 5000]).2.2 100 [5000] rfl⟩

/-- Claim C6: whenever `parseRepository` succeeds, the returned username
and name contain no slash and sit verbatim as the two path segments
immediately preceding `.git` in the input; on
"https://example.com/alice/blog.git" it returns {alice, blog}, and on the
same URL without `.git` it returns null. -/
theorem claim_C6 :
    (∀ (s u n : String), parseRepository (some s) = some ⟨u, n⟩ →
        ('/' ∉ u.data ∧ '/' ∉ n.data) ∧
          ∃ pre rest, s.data =
            pre ++ '/' :: u.data ++ '/' :: n.data ++ '.' :: 'g' :: 'i' :: 't' :: rest) ∧
      parseRepository (some "https://example.com/alice/blog.git") =
        some ⟨"alice", "blog"⟩ ∧
      parseRepository (some "https://example.com/alice/blog") = none :=
  ⟨fun _ _ _ h => parseRepository_sound h, by decide, by decide⟩

/-- Witness for C6 at the concrete URL of the claim. -/
theorem claim_C6_witness :
    ('/' ∉ ("alice" : String).data ∧ '/' ∉ ("blog" : String).data) ∧
      ∃ pre rest, ("https://example.com/alice/blog.git" : String).data =
        pre ++ '/' :: ("alice" : String).data ++ '/' :: ("blog" : String).data ++
          '.' :: 'g' :: 'i' :: 't' :: rest :=
  claim_C6.1 "https://example.com/alice/blog.git" "alice" "blog" (by decide)

/-- Claim C7: when the explicit repository URL is absent or fails to parse,
resolution falls back to applying the same pattern to the manifest's
declared URL; when that also fails, the run terminates with the repository
diagnostic and exit code 1 before any article is read or published — the
outcome is independent of the token, the publisher and the configuration
entries. -/
theorem claim_C7 (ε : Type) (repositoryUrl manifestUrl : Option String)
    (hparse : parseRepository repositoryUrl = none) :
    resolveRepository repositoryUrl manifestUrl = extractRepository manifestUrl ∧
      (extractRepository manifestUrl = Except.error () →
        ∀ (devToToken : Option String)
          (publish : ArticleConfig → Except ε ArticlePublishedStatus)
          (files : List ArticleConfigFile),
          programRun repositoryUrl manifestUrl devToToken publish files =
            ([LogEvent.repoDiagnostic], 1)) := by
  have h1 : resolveRepository repositoryUrl manifestUrl = extractRepository manifestUrl := by
    simp [resolveRepository, hparse]
  refine ⟨h1, fun hext tok pub files => ?_⟩
  simp [programRun, h1, hext]

/-- Witness for C7: an explicit URL without `.git` and a missing manifest
URL make the whole run fail with the repository diagnostic. -/
theorem claim_C7_witness :
    programRun (some "not-a-git-url") none (some "token")
        (fun _ => (Except.ok stCreated : Except Unit ArticlePublishedStatus)) [cfgFileA] =
      ([LogEvent.repoDiagnostic], 1) :=
  (claim_C7 Unit (some "not-a-git-url") none (by decide)).2 rfl (some "token")
    (fun _ => Except.ok stCreated) [cfgFileA]

/-- Claim C8: for a configuration file parsed as a JSON array,
`readConfigFile` returns one entry per element, in file order, each equal
to the file entry with the resolved repository attached and every other
field unchanged. -/
theorem claim_C8 (repository : Repository) (files : List ArticleConfigFile) :
    (readConfigFile repository files).length = files.length ∧
      ∀ (i : Nat) (f : ArticleConfigFile), files[i]? = some f →
        ∃ e, (readConfigFile repository files)[i]? = some e ∧
          e.toArticleConfigFile = f ∧ e.repository = repository := by
  refine ⟨by simp [readConfigFile], fun i f hf => ?_⟩
  exact ⟨⟨f, repository⟩, by simp [readConfigFile, hf], rfl, rfl⟩

/-- Witness for C8 at a concrete two-entry file, second entry. -/
theorem claim_C8_witness :
    ∃ e, (readConfigFile sampleRepo [cfgFileA, cfgFileB])[1]? = some e ∧
      e.toArticleConfigFile = cfgFileB ∧ e.repository = sampleRepo :=
  (claim_C8 sampleRepo [cfgFileA, cfgFileB]).2 1 cfgFileB (by decide)

/-- Claim C9: `parseRepository` applied to the empty string returns null —
the falsy check treats it like an absent URL — so an explicitly supplied
empty repository URL silently falls through to the manifest fallback,
exactly as when no URL is supplied. -/
theorem claim_C9 :
    parseRepository (some "") = none ∧ parseRepository none = none ∧
      ∀ manifestUrl : Option String,
        resolveRepository (some "") manifestUrl = extractRepository manifestUrl ∧
        resolveRepository (some "") manifestUrl = resolveRepository none manifestUrl :=
  ⟨rfl, rfl, fun _ => ⟨rfl, rfl⟩⟩

/-- Witness for C9 at a concrete manifest URL. -/
theorem claim_C9_witness :
    resolveRepository (some "") (some "https://example.com/alice/blog.git") =
        extractRepository (some "https://example.com/alice/blog.git") ∧
      resolveRepository (some "") (some "https://example.com/alice/blog.git") =
        resolveRepository none (some "https://example.com/alice/blog.git") :=
  claim_C9.2.2 (some "https://example.com/alice/blog.git")

/-- Claim C10 counterexample: "x/a\rb/c.git" contains
`/<segment>/<segment>.git` as a substring with slash-free segments "a\rb"
and "c", yet `parseRepository` returns none — JavaScript `.` cannot match
the carriage return inside the first segment, so mere substring containment
is not sufficient for a match. -/
theorem claim_C10_counterexample :
    ("x/a\rb/c.git" : String).data =
        "x".data ++ '/' :: "a\rb".data ++ '/' :: "c".data ++
          '.' :: 'g' :: 'i' :: 't' :: [] ∧
      ('/' ∉ ("a\rb" : String).data ∧ '/' ∉ ("c" : String).data) ∧
      parseRepository (some "x/a\rb/c.git") = none := by
  refine ⟨by decide, by decide, by decide⟩

/-- Claim C10 amended: the pattern is unanchored — every string containing
`/<segment>/<segment>.git` as a substring matches, provided the segments
contain no ECMAScript line terminator (LF, CR, U+2028, U+2029), which
JavaScript `.` cannot match — so `.git` need not terminate the input; on
"https://example.com/alice/blog.git/extra" the characters after `.git` are
ignored and {alice, blog} is extracted. -/
theorem claim_C10_amended :
    (∀ pre x y post : List Char,
        (∀ c ∈ x, c ≠ '\n' ∧ c ≠ '\r' ∧ c ≠ '\u2028' ∧ c ≠ '\u2029') →
        (∀ c ∈ y, c ≠ '\n' ∧ c ≠ '\r' ∧ c ≠ '\u2028' ∧ c ≠ '\u2029') →
        (parseRepository
          (some ⟨pre ++ '/' :: x ++ '/' :: y ++ '.' :: 'g' :: 'i' :: 't' :: post⟩)).isSome) ∧
      parseRepository (some "https://example.com/alice/blog.git/extra") =
        some ⟨"alice", "blog"⟩ := by
  refine ⟨fun pre x y post hx hy => parseRepository_complete pre x y post ?_ ?_, by decide⟩
  · intro c hc
    obtain ⟨h1, h2, h3, h4⟩ := hx c hc
    simp [isDot, bne_iff_ne, h1, h2, h3, h4]
  · intro c hc
    obtain ⟨h1, h2, h3, h4⟩ := hy c hc
    simp [isDot, bne_iff_ne, h1, h2, h3, h4]

/-- Witness for the amended C10 at the concrete decomposition of the
claim's URL. -/
theorem claim_C10_witness :
    (parseRepository
      (some ⟨"https://example.com".data ++ '/' :: "alice".data ++ '/' :: "blog".data ++
        '.' :: 'g' :: 'i' :: 't' :: "/extra".data⟩)).isSome :=
  claim_C10_amended.1 "https://example.com".data "alice".data "blog".data "/extra".data
    (by decide) (by decide)
